import Mathlib

/-!
Verification of the quai-cpu-miner orchestration layer (`main.go`) against its
natural-language specification.  The Go source is shallowly embedded: each
loop becomes a Lean function over explicit inputs (per-attempt outcome
oracles, header lists, schedules), emitting an explicit event trace where the
source performs I/O (log lines, sleeps, channel sends, RPC submissions).
-/

namespace QuaiMiner

/-- Hierarchy context index of the Prime chain (go-quai `common.PRIME_CTX`). -/
def PRIME_CTX : Nat := 0

/-- Hierarchy context index of a Region chain (go-quai `common.REGION_CTX`). -/
def REGION_CTX : Nat := 1

/-- Hierarchy context index of a Zone chain (go-quai `common.ZONE_CTX`). -/
def ZONE_CTX : Nat := 2

/-- Number of hierarchy levels (go-quai `common.HierarchyDepth`). -/
def HierarchyDepth : Nat := 3

/-- `maxRetryDelay = 60 * 60 * 4` seconds from `main.go`. -/
def maxRetryDelay : Nat := 60 * 60 * 4

/-! ## Result loop (`Miner.resultLoop`, `Miner.sendMinedHeaderNodes`) -/

/-- Observable events emitted by one pass of `resultLoop`:
`submitNode ctx ok` is a call `sendMinedHeaderNodes(ctx, header)` whose error
result is `ok`; `submitProxy` is the spawned `sendMinedHeaderProxy` call;
`logLine msg` is a `log.Println` call.  The source's `fmt.Errorf` in the
fan-out loop constructs an error value and discards it, so it emits nothing. -/
inductive REvent where
  | submitNode (ctx : Nat) (ok : Bool)
  | submitProxy
  | logLine (msg : String)
deriving DecidableEq

/-- Input for one `resultLoop` iteration: the outcome of
`engine.CalcOrder(header)` for the received header, and the per-context
success of `sendMinedHeaderNodes`. -/
structure ResultInput where
  calcOrder : Except String Nat
  sendOk : Nat → Bool

/-- The context indices visited by the fan-out loop
`for i := HierarchyDepth - 1; i >= order; i--` in `resultLoop`. -/
def loopIndices (order : Nat) : List Nat :=
  ((List.range HierarchyDepth).filter (fun i => decide (order ≤ i))).reverse

/-- The events of the direct-node fan-out in `resultLoop`: each visited
context is submitted to; on failure the constructed `fmt.Errorf` value is
discarded (no log line) and `continue` moves to the next context. -/
def fanOutNodes (sendOk : Nat → Bool) (order : Nat) : List REvent :=
  (loopIndices order).map (fun i => REvent.submitNode i (sendOk i))

/-- The classification log line at the end of a successful `resultLoop`
iteration (`PRIME block` / `REGION block` / `ZONE block`). -/
def classifyLog (order : Nat) : List REvent :=
  if order = PRIME_CTX then [REvent.logLine ("PRIME block")]
  else if order = REGION_CTX then [REvent.logLine ("REGION block")]
  else if order = ZONE_CTX then [REvent.logLine ("ZONE block")]
  else []

/-- One iteration of `Miner.resultLoop` on a received result.  Returns the
emitted events and `true` when the loop keeps running; the `CalcOrder`
failure branch executes `return`, modelled as `false`. -/
def resultStep (proxy : Bool) (r : ResultInput) : List REvent × Bool :=
  match r.calcOrder with
  | Except.error _ => ([REvent.logLine ("Mined block had invalid order")], false)
  | Except.ok order =>
      let body :=
        if proxy then [REvent.submitProxy]
        else fanOutNodes r.sendOk order
      (body ++ classifyLog order, true)

/-- `Miner.resultLoop` run over a finite sequence of results arriving on
`m.resultCh`, concatenating the emitted events; processing stops when an
iteration executes `return`. -/
def resultLoop (proxy : Bool) : List ResultInput → List REvent
  | [] => []
  | r :: rs =>
      let step := resultStep proxy r
      if step.2 then step.1 ++ resultLoop proxy rs else step.1

/-- The contexts of the node submissions appearing in an event list. -/
def submitsOf : List REvent → List Nat
  | [] => []
  | REvent.submitNode ctx _ :: es => ctx :: submitsOf es
  | _ :: es => submitsOf es

/-- The log lines appearing in an event list. -/
def logsOf : List REvent → List String
  | [] => []
  | REvent.logLine msg :: es => msg :: logsOf es
  | _ :: es => logsOf es

/-! ## Retry policy and network loops
(`Miner.fetchPendingHeaderNode`, `Miner.fetchPendingHeaderProxy`,
`Miner.sendMinedHeaderProxy`, `connectToProxy`, `connectToSlice`) -/

/-- Observable events of the network-facing loops: an RPC/dial attempt, a
`time.Sleep` of the given number of seconds, a `log` line, and a send of a
header onto `m.updateCh`. -/
inductive NetEvent where
  | dial (url : String)
  | sleepFor (seconds : Nat)
  | logLine (msg : String)
  | enqueueHeader (h : Nat)
deriving DecidableEq

/-- The sleep durations appearing in an event list, in order. -/
def sleepsOf : List NetEvent → List Nat
  | [] => []
  | NetEvent.sleepFor d :: es => d :: sleepsOf es
  | _ :: es => sleepsOf es

/-- The update of `retryDelay` after a failure:
`retryDelay *= 2; if retryDelay > maxRetryDelay { retryDelay = maxRetryDelay }`. -/
def nextRetryDelay (d : Nat) : Nat :=
  if d * 2 > maxRetryDelay then maxRetryDelay else d * 2

/-- The value of `retryDelay` slept at the `n`-th failure (0-based); it starts
at 1 second and is updated by `nextRetryDelay` after each failure. -/
def retryDelayAfter : Nat → Nat
  | 0 => 1
  | n + 1 => nextRetryDelay (retryDelayAfter n)

/-- The sequence of delays produced by starting at `d` and applying
`nextRetryDelay` repeatedly, for a given number of failures. -/
def delaysFrom (d : Nat) : Nat → List Nat
  | 0 => []
  | n + 1 => d :: delaysFrom (nextRetryDelay d) n

/-- `Miner.fetchPendingHeaderNode` run for at most `fuel` iterations, starting
at attempt index `k` with current `retryDelay` `d`.  `get k` is the outcome of
the `k`-th `GetPendingHeader` call (`none` = error).  Returns the event trace
and whether the loop has executed `break` (pushed a header and returned). -/
def fetchNodeRun (get : Nat → Option Nat) : Nat → Nat → Nat → List NetEvent × Bool
  | _, _, 0 => ([], false)
  | d, k, fuel + 1 =>
      match get k with
      | some h => ([NetEvent.enqueueHeader h], true)
      | none =>
          let rest := fetchNodeRun get (nextRetryDelay d) (k + 1) fuel
          (NetEvent.logLine ("Pending block not found error")
              :: NetEvent.sleepFor d :: rest.1,
           rest.2)

/-- `Miner.sendMinedHeaderProxy` run for at most `fuel` iterations, starting
at attempt index `k` with current `retryDelay` `d`.  `send k` is the success
of the `k`-th `SendTCPRequest`.  On success the loop breaks immediately; on
failure it logs, sleeps, then reaches the trailing `log.Println("Sent mined
header")` at the bottom of the loop body (the `break` on the success path
skips that line). -/
def sendProxyRun (send : Nat → Bool) : Nat → Nat → Nat → List NetEvent × Bool
  | _, _, 0 => ([], false)
  | d, k, fuel + 1 =>
      if send k then ([], true)
      else
        let rest := sendProxyRun send (nextRetryDelay d) (k + 1) fuel
        (NetEvent.logLine ("Unable to send pending header to node")
            :: NetEvent.sleepFor d :: NetEvent.logLine ("Sent mined header")
            :: rest.1,
         rest.2)

/-- One iteration of `Miner.fetchPendingHeaderProxy` after the
`quai_getPendingHeader` request: the iteration unconditionally consumes a
header `h` from `m.updateCh`; if the preceding `SendTCPRequest` returned an
error the iteration logs and sleeps for `d` seconds and retries (the consumed
header is not re-enqueued); otherwise it re-enqueues `h` and breaks.  Returns
the event trace and whether the loop breaks. -/
def fetchProxyIter (sendOk : Bool) (h : Nat) (d : Nat) : List NetEvent × Bool :=
  if sendOk then ([NetEvent.enqueueHeader h], true)
  else ([NetEvent.logLine ("Pending block not found error"), NetEvent.sleepFor d], false)

/-! ## Sealing coordinator (`Miner.miningLoop`) -/

/-- Observable events of `miningLoop`: `cancel i` is `close(stopCh)` on the
stop channel of seal attempt `i` (the `interrupt()` closure); `start i h` is
the call `engine.Seal(header, m.resultCh, stopCh)` launching attempt `i` on
header `h` with a freshly allocated stop channel. -/
inductive SealEvent where
  | cancel (id : Nat)
  | start (id : Nat) (h : Nat)
deriving DecidableEq

/-- `Miner.miningLoop` run over a finite sequence of headers received on
`m.updateCh`.  `st` is the identity of the stop channel of the in-flight seal
attempt (`none` iff `stopCh == nil`), `fresh` the identity of the next stop
channel to be allocated.  Each received header first runs `interrupt()`
(closing the in-flight attempt's stop channel, if any) and only then
allocates a fresh stop channel and invokes `engine.Seal`. -/
def miningRun : Option Nat → Nat → List Nat → List SealEvent
  | _, _, [] => []
  | st, fresh, h :: hs =>
      (match st with
       | some i => [SealEvent.cancel i]
       | none => []) ++
      (SealEvent.start fresh h :: miningRun (some fresh) (fresh + 1) hs)

/-- The set (as a list) of live seal attempts after a trace: attempts started
and not yet cancelled, accumulated from an initial set. -/
def liveFrom (init : List Nat) : List SealEvent → List Nat
  | [] => init
  | SealEvent.start i _ :: es => liveFrom (init ++ [i]) es
  | SealEvent.cancel i :: es => liveFrom (init.filter (fun j => decide (j ≠ i))) es

/-- The headers passed to `engine.Seal`, in invocation order. -/
def startHeaders : List SealEvent → List Nat
  | [] => []
  | SealEvent.start _ h :: es => h :: startHeaders es
  | SealEvent.cancel _ :: es => startHeaders es

/-- Closed form of the trace of `miningLoop` from a live attempt `i`:
each further header first cancels the previous attempt, then starts the
next one. -/
def sealTraceFrom (i : Nat) : List Nat → List SealEvent
  | [] => []
  | h :: hs =>
      SealEvent.cancel i :: SealEvent.start (i + 1) h :: sealTraceFrom (i + 1) hs

/-! ## Request-id counter (`Miner.incrementLatestID`) -/

/-- `Miner.incrementLatestID` as executed atomically: reads `m.latestId` into
`cur`, increments the field by one, returns `cur`.  Given the pre-state of
the counter it returns the issued id and the post-state. -/
def incrementLatestID (latestId : Nat) : Nat × Nat :=
  (latestId, latestId + 1)

/-- The ids issued by `n` serialized calls of `incrementLatestID` starting
from counter value `start`. -/
def issuedIds (start : Nat) : Nat → List Nat
  | 0 => []
  | n + 1 =>
      (incrementLatestID start).1 :: issuedIds (incrementLatestID start).2 n

/-- Shared-memory state for two concurrent callers A and B of
`incrementLatestID`.  Each caller executes two machine steps on the plain
(unsynchronized) field `m.latestId`: at pc 0 it performs `cur := m.latestId`;
at pc 1 it performs `m.latestId += 1` and returns (pc 2). -/
structure IdRace where
  latestId : Nat
  pcA : Nat
  pcB : Nat
  curA : Nat
  curB : Nat
deriving DecidableEq

/-- One interleaving step: `false` runs caller A's next machine step, `true`
runs caller B's. -/
def idStep (s : IdRace) (b : Bool) : IdRace :=
  if b then
    if s.pcB = 0 then { s with curB := s.latestId, pcB := 1 }
    else if s.pcB = 1 then { s with latestId := s.latestId + 1, pcB := 2 }
    else s
  else
    if s.pcA = 0 then { s with curA := s.latestId, pcA := 1 }
    else if s.pcA = 1 then { s with latestId := s.latestId + 1, pcA := 2 }
    else s

/-- Run a schedule of interleaved steps from a state. -/
def idRun (sched : List Bool) (s : IdRace) : IdRace :=
  sched.foldl idStep s

/-- Both callers poised at their first step, counter at 0. -/
def idInit : IdRace := ⟨0, 0, 0, 0, 0⟩

/-! ## Connection loops (`connectToProxy`, `connectToSlice`) -/

/-- `connectToProxy` run for at most `fuel` iterations.  `dial k` is the
success of the `k`-th `util.NewMinerConn(config.ProxyURL)` call.  Each
iteration attempts a dial only when `config.ProxyURL != ""` and the proxy is
not yet connected; a failed dial logs; the loop body contains no sleep.
Returns the event trace and whether the function has returned. -/
def connectProxyRun (url : String) (dial : Nat → Bool) : Nat → Nat → List NetEvent × Bool
  | _, 0 => ([], false)
  | k, fuel + 1 =>
      if url ≠ "" then
        if dial k then ([NetEvent.dial url], true)
        else
          let rest := connectProxyRun url dial (k + 1) fuel
          (NetEvent.dial url :: NetEvent.logLine ("Unable to connect to proxy") :: rest.1,
           rest.2)
      else
        connectProxyRun url dial k fuel

/-- Connection flags of `connectToSlice`:
`primeConnected`, `regionConnected`, `zoneConnected`. -/
structure SliceConn where
  p : Bool
  r : Bool
  z : Bool
deriving DecidableEq

/-- One pass of the `connectToSlice` loop body at iteration `k`: each of the
three guarded blocks dials its endpoint when its URL is non-empty and the
corresponding flag is still false, setting the flag on success and logging on
failure.  `dp`, `dr`, `dz` are the per-iteration dial outcomes. -/
def sliceStep (pu ru zu : String) (dp dr dz : Nat → Bool) (k : Nat)
    (s : SliceConn) : List NetEvent × SliceConn :=
  let step1 :=
    if pu ≠ "" ∧ s.p = false then
      if dp k then ([NetEvent.dial pu], { s with p := true })
      else ([NetEvent.dial pu, NetEvent.logLine ("Unable to connect to node")], s)
    else ([], s)
  let s1 := step1.2
  let step2 :=
    if ru ≠ "" ∧ s1.r = false then
      if dr k then ([NetEvent.dial ru], { s1 with r := true })
      else ([NetEvent.dial ru, NetEvent.logLine ("Unable to connect to node")], s1)
    else ([], s1)
  let s2 := step2.2
  let step3 :=
    if zu ≠ "" ∧ s2.z = false then
      if dz k then ([NetEvent.dial zu], { s2 with z := true })
      else ([NetEvent.dial zu, NetEvent.logLine ("Unable to connect to node")], s2)
    else ([], s2)
  (step1.1 ++ step2.1 ++ step3.1, step3.2)

/-- `connectToSlice` run for at most `fuel` iterations of the loop
`for !primeConnected || !regionConnected || !zoneConnected`.  Returns the
event trace and whether the function has returned. -/
def connectSliceRun (pu ru zu : String) (dp dr dz : Nat → Bool) :
    SliceConn → Nat → Nat → List NetEvent × Bool
  | _, _, 0 => ([], false)
  | s, k, fuel + 1 =>
      if s.p ∧ s.r ∧ s.z then ([], true)
      else
        let step := sliceStep pu ru zu dp dr dz k s
        let rest := connectSliceRun pu ru zu dp dr dz step.2 (k + 1) fuel
        (step.1 ++ rest.1, rest.2)

/-! ## Pprof port selection (`EnablePprof`) -/

/-- go-quai `common.Location`: a byte slice, `[]` for Prime, `[region]` for a
Region, `[region, zone]` for a Zone.  `Context()` is determined by the
length; `Region()` and `Zone()` read the first and second byte (indices of a
location that lacks the byte are irrelevant to `EnablePprof` on the locations
the claims range over, and are modelled as 0). -/
def locContext (loc : List Nat) : Nat :=
  match loc with
  | [] => PRIME_CTX
  | [_] => REGION_CTX
  | _ => ZONE_CTX

/-- `Location.Region()`: the first byte. -/
def locRegion (loc : List Nat) : Nat := loc.headD 0

/-- `Location.Zone()`: the second byte. -/
def locZone (loc : List Nat) : Nat := (loc.drop 1).headD 0

/-- The `switch` in `EnablePprof` choosing the pprof port, over the values of
`location.Context()`, `location.Region()` and `location.Zone()`.  `port` is
declared as the empty string and no `default` case exists, so a location
matching no case leaves it `""`. -/
def pprofPortAux (ctx region zone : Nat) : String :=
  if ctx = PRIME_CTX then "21000"
  else if ctx = REGION_CTX ∧ region = 0 then "22000"
  else if ctx = REGION_CTX ∧ region = 1 then "22001"
  else if ctx = REGION_CTX ∧ region = 2 then "22002"
  else if region = 0 ∧ zone = 0 then "23000"
  else if region = 0 ∧ zone = 1 then "23001"
  else if region = 0 ∧ zone = 2 then "23002"
  else if region = 1 ∧ zone = 0 then "23100"
  else if region = 1 ∧ zone = 1 then "23101"
  else if region = 1 ∧ zone = 2 then "23102"
  else if region = 2 ∧ zone = 0 then "23200"
  else if region = 2 ∧ zone = 1 then "23201"
  else if region = 2 ∧ zone = 2 then "23202"
  else ""

/-- The pprof port selected by `EnablePprof` for a location. -/
def pprofPort (loc : List Nat) : String :=
  pprofPortAux (locContext loc) (locRegion loc) (locZone loc)

/-- The address handed to `http.ListenAndServe` by `EnablePprof`. -/
def pprofListenAddr (loc : List Nat) : String :=
  "localhost:" ++ pprofPort loc

/-- The locations enumerated by the `switch` in `EnablePprof`: Prime, the
three Regions, and the nine Zones. -/
def enumeratedLocations : List (List Nat) :=
  [[], [0], [1], [2],
   [0, 0], [0, 1], [0, 2], [1, 0], [1, 1], [1, 2], [2, 0], [2, 1], [2, 2]]

/-! ## Hashrate SI conversion (`Miner.hashratePrinter`) -/

/-- The reduction loop of `toSiUnits`: `for { if reduced >= 1000 { reduced /=
1000; order += 3 } else { break } }`.  The source computes on `float64`;
the embedding computes on exact rationals, on which every operation of the
claims' concrete inputs is exact in binary64 as well. -/
def siReduce (reduced : ℚ) (order : Nat) : ℚ × Nat :=
  if h : 1000 ≤ reduced then siReduce (reduced / 1000) (order + 3)
  else (reduced, order)
termination_by (⌈reduced⌉).toNat
decreasing_by
  have h2 : (⌈reduced / 1000⌉ : ℤ) ≤ ⌈reduced⌉ - 999 := by
    have hc : (⌈reduced / 1000⌉ : ℤ) ≤ ⌈reduced - ((999 : ℤ) : ℚ)⌉ :=
      Int.ceil_le_ceil (by push_cast; linarith)
    simpa [Int.ceil_sub_int] using hc
  have h3 : (1000 : ℤ) ≤ ⌈reduced⌉ := by
    have hc : (⌈((1000 : ℤ) : ℚ)⌉ : ℤ) ≤ ⌈reduced⌉ :=
      Int.ceil_le_ceil (by push_cast; linarith)
    simpa using hc
  omega

/-- `toSiUnits` from `hashratePrinter`: reduce, then select the suffix from
the division count; any other count falls back to the original value with
the base unit. -/
def toSiUnits (hr : ℚ) : ℚ × String :=
  let rd := siReduce hr 0
  if rd.2 = 3 then (rd.1, "Kh/s")
  else if rd.2 = 6 then (rd.1, "Mh/s")
  else if rd.2 = 9 then (rd.1, "Gh/s")
  else if rd.2 = 12 then (rd.1, "Th/s")
  else (hr, "h/s")

/-! ## Helper lemmas -/

theorem miningRun_some (hs : List Nat) :
    ∀ i, miningRun (some i) (i + 1) hs = sealTraceFrom i hs := by
  induction hs with
  | nil => intro i; rfl
  | cons h hs ih => intro i; simp [miningRun, sealTraceFrom, ih]

theorem live_sealTraceFrom (hs : List Nat) :
    ∀ i n, (liveFrom [i] ((sealTraceFrom i hs).take n)).length ≤ 1 := by
  induction hs with
  | nil => intro i n; simp [sealTraceFrom, liveFrom]
  | cons h hs ih =>
      intro i n
      match n with
      | 0 => simp [liveFrom]
      | 1 => simp [sealTraceFrom, liveFrom]
      | n + 2 =>
          have he : (sealTraceFrom i (h :: hs)).take (n + 2)
              = SealEvent.cancel i :: SealEvent.start (i + 1) h
                :: (sealTraceFrom (i + 1) hs).take n := rfl
          rw [he]
          simp only [liveFrom]
          have h1 : ([i].filter (fun j => decide (j ≠ i))) = [] := by simp
          rw [h1]
          simpa using ih (i + 1) n

theorem cancel_before_start_aux (hs : List Nat) :
    ∀ i n k h', SealEvent.start k h' ∈ (sealTraceFrom i hs).take n →
      SealEvent.cancel (k - 1) ∈ (sealTraceFrom i hs).take n := by
  induction hs with
  | nil => intro i n k h' hm; simp [sealTraceFrom] at hm
  | cons h hs ih =>
      intro i n k h' hm
      match n with
      | 0 => simp at hm
      | 1 => simp [sealTraceFrom] at hm
      | n + 2 =>
          have he : (sealTraceFrom i (h :: hs)).take (n + 2)
              = SealEvent.cancel i :: SealEvent.start (i + 1) h
                :: (sealTraceFrom (i + 1) hs).take n := rfl
          rw [he] at hm ⊢
          simp only [List.mem_cons] at hm
          rcases hm with h1 | h2 | h3
          · exact absurd h1 (by simp)
          · have hk : k = i + 1 := by injection h2
            subst hk
            simp
          · exact List.mem_cons_of_mem _ (List.mem_cons_of_mem _ (ih (i + 1) n k h' h3))

theorem startHeaders_sealTraceFrom (hs : List Nat) :
    ∀ i, startHeaders (sealTraceFrom i hs) = hs := by
  induction hs with
  | nil => intro i; rfl
  | cons h hs ih => intro i; simp [sealTraceFrom, startHeaders, ih]

theorem retryDelayAfter_eq (n : Nat) : retryDelayAfter n = min (2 ^ n) maxRetryDelay := by
  induction n with
  | zero =>
      simp only [retryDelayAfter, maxRetryDelay]
      omega
  | succ n ih =>
      have h2 : 2 ^ (n + 1) = 2 ^ n * 2 := pow_succ 2 n
      simp only [retryDelayAfter, ih, nextRetryDelay, maxRetryDelay] at *
      split_ifs <;> omega

theorem delaysFrom_retryDelayAfter (fuel : Nat) :
    ∀ m, delaysFrom (retryDelayAfter m) fuel
      = (List.range fuel).map (fun i => retryDelayAfter (m + i)) := by
  induction fuel with
  | zero => intro m; rfl
  | succ fuel ih =>
      intro m
      rw [List.range_succ_eq_map]
      simp only [delaysFrom, List.map_cons, List.map_map, Nat.add_zero]
      refine congrArg _ ?_
      rw [show nextRetryDelay (retryDelayAfter m) = retryDelayAfter (m + 1) from rfl,
        ih (m + 1)]
      refine List.map_congr_left ?_
      intro i _
      simp only [Function.comp]
      exact congrArg retryDelayAfter (by omega)

theorem delaysFrom_one (n : Nat) :
    delaysFrom 1 n = (List.range n).map (fun i => min (2 ^ i) maxRetryDelay) := by
  have h := delaysFrom_retryDelayAfter n 0
  have h1 : retryDelayAfter 0 = 1 := rfl
  rw [h1] at h
  rw [h]
  refine List.map_congr_left ?_
  intro i _
  rw [Nat.zero_add, retryDelayAfter_eq]

theorem fetchNodeRun_fail_step (get : Nat → Option Nat) (d k fuel : Nat)
    (h0 : get k = none) :
    fetchNodeRun get d k (fuel + 1)
      = (NetEvent.logLine ("Pending block not found error") :: NetEvent.sleepFor d ::
          (fetchNodeRun get (nextRetryDelay d) (k + 1) fuel).1,
         (fetchNodeRun get (nextRetryDelay d) (k + 1) fuel).2) := by
  conv_lhs => rw [fetchNodeRun, h0]

theorem sendProxyRun_fail_step (send : Nat → Bool) (d k fuel : Nat)
    (h0 : send k = false) :
    sendProxyRun send d k (fuel + 1)
      = (NetEvent.logLine ("Unable to send pending header to node") :: NetEvent.sleepFor d ::
          NetEvent.logLine ("Sent mined header") ::
          (sendProxyRun send (nextRetryDelay d) (k + 1) fuel).1,
         (sendProxyRun send (nextRetryDelay d) (k + 1) fuel).2) := by
  rw [sendProxyRun, h0]
  simp

theorem fetchNode_allFail (get : Nat → Option Nat) (hfail : ∀ k, get k = none) :
    ∀ fuel d k, sleepsOf (fetchNodeRun get d k fuel).1 = delaysFrom d fuel
      ∧ (fetchNodeRun get d k fuel).2 = false := by
  intro fuel
  induction fuel with
  | zero => intro d k; exact ⟨rfl, rfl⟩
  | succ fuel ih =>
      intro d k
      rw [fetchNodeRun_fail_step get d k fuel (hfail k)]
      exact ⟨by simp [sleepsOf, delaysFrom, (ih (nextRetryDelay d) (k + 1)).1],
             (ih (nextRetryDelay d) (k + 1)).2⟩

theorem sendProxy_allFail (send : Nat → Bool) (hfail : ∀ k, send k = false) :
    ∀ fuel d k, sleepsOf (sendProxyRun send d k fuel).1 = delaysFrom d fuel
      ∧ (sendProxyRun send d k fuel).2 = false := by
  intro fuel
  induction fuel with
  | zero => intro d k; exact ⟨rfl, rfl⟩
  | succ fuel ih =>
      intro d k
      rw [sendProxyRun_fail_step send d k fuel (hfail k)]
      exact ⟨by simp [sleepsOf, delaysFrom, (ih (nextRetryDelay d) (k + 1)).1],
             (ih (nextRetryDelay d) (k + 1)).2⟩

theorem fetchNode_success (get : Nat → Option Nat) :
    ∀ n d k h, (∀ j, j < n → get (k + j) = none) → get (k + n) = some h →
      (fetchNodeRun get d k (n + 1)).2 = true
      ∧ sleepsOf (fetchNodeRun get d k (n + 1)).1 = delaysFrom d n := by
  intro n
  induction n with
  | zero =>
      intro d k h _ hs
      simp only [Nat.add_zero] at hs
      simp [fetchNodeRun, hs, sleepsOf, delaysFrom]
  | succ n ih =>
      intro d k h hf hs
      have h0 : get k = none := by simpa using hf 0 (by omega)
      have hf' : ∀ j, j < n → get (k + 1 + j) = none := by
        intro j hj
        have := hf (j + 1) (by omega)
        simpa [Nat.add_assoc, Nat.add_comm 1 j] using this
      have hs' : get (k + 1 + n) = some h := by
        have he : k + 1 + n = k + (n + 1) := by omega
        rw [he]; exact hs
      have IH := ih (nextRetryDelay d) (k + 1) h hf' hs'
      rw [fetchNodeRun_fail_step get d k (n + 1) h0]
      exact ⟨IH.1, by simp [sleepsOf, delaysFrom, IH.2]⟩

theorem sendProxy_success (send : Nat → Bool) :
    ∀ n d k, (∀ j, j < n → send (k + j) = false) → send (k + n) = true →
      (sendProxyRun send d k (n + 1)).2 = true
      ∧ sleepsOf (sendProxyRun send d k (n + 1)).1 = delaysFrom d n := by
  intro n
  induction n with
  | zero =>
      intro d k _ hs
      simp only [Nat.add_zero] at hs
      simp [sendProxyRun, hs, sleepsOf, delaysFrom]
  | succ n ih =>
      intro d k hf hs
      have h0 : send k = false := by simpa using hf 0 (by omega)
      have hf' : ∀ j, j < n → send (k + 1 + j) = false := by
        intro j hj
        have := hf (j + 1) (by omega)
        simpa [Nat.add_assoc, Nat.add_comm 1 j] using this
      have hs' : send (k + 1 + n) = true := by
        have he : k + 1 + n = k + (n + 1) := by omega
        rw [he]; exact hs
      have IH := ih (nextRetryDelay d) (k + 1) hf' hs'
      rw [sendProxyRun_fail_step send d k (n + 1) h0]
      exact ⟨IH.1, by simp [sleepsOf, delaysFrom, IH.2]⟩

theorem sleepsOf_append (a b : List NetEvent) :
    sleepsOf (a ++ b) = sleepsOf a ++ sleepsOf b := by
  induction a with
  | nil => rfl
  | cons e a ih => cases e <;> simp [sleepsOf, ih]

theorem connectProxy_returns (url : String) (dial : Nat → Bool) :
    ∀ fuel k, (connectProxyRun url dial k fuel).2 = true →
      url ≠ "" ∧ ∃ n, dial n = true := by
  intro fuel
  induction fuel with
  | zero => intro k h; simp [connectProxyRun] at h
  | succ fuel ih =>
      intro k h
      rw [connectProxyRun] at h
      by_cases hu : url ≠ ""
      · rw [if_pos hu] at h
        by_cases hd : dial k
        · exact ⟨hu, k, hd⟩
        · rw [if_neg hd] at h
          exact ih (k + 1) h
      · rw [if_neg hu] at h
        exact ih k h

theorem connectProxy_succeeds (url : String) (dial : Nat → Bool) (hu : url ≠ "") :
    ∀ n k, dial (k + n) = true → (connectProxyRun url dial k (n + 1)).2 = true := by
  intro n
  induction n with
  | zero =>
      intro k h
      simp only [Nat.add_zero] at h
      rw [connectProxyRun, if_pos hu, if_pos h]
  | succ n ih =>
      intro k h
      rw [connectProxyRun, if_pos hu]
      by_cases hd0 : dial k
      · rw [if_pos hd0]
      · rw [if_neg hd0]
        exact ih (k + 1) (by rw [show k + 1 + n = k + (n + 1) from by omega]; exact h)

theorem connectProxy_no_sleep (url : String) (dial : Nat → Bool) :
    ∀ fuel k, sleepsOf (connectProxyRun url dial k fuel).1 = [] := by
  intro fuel
  induction fuel with
  | zero => intro k; rfl
  | succ fuel ih =>
      intro k
      rw [connectProxyRun]
      split_ifs with h1 h2
      · rfl
      · simp [sleepsOf, ih (k + 1)]
      · exact ih k

theorem sliceStep_p_empty (pu ru zu : String) (dp dr dz : Nat → Bool) (k : Nat)
    (s : SliceConn) (hpu : pu = "") :
    (sliceStep pu ru zu dp dr dz k s).2.p = s.p := by
  simp only [sliceStep, hpu]
  split_ifs <;> simp_all

theorem sliceStep_r_empty (pu ru zu : String) (dp dr dz : Nat → Bool) (k : Nat)
    (s : SliceConn) (hru : ru = "") :
    (sliceStep pu ru zu dp dr dz k s).2.r = s.r := by
  simp only [sliceStep, hru]
  split_ifs <;> simp_all

theorem sliceStep_z_empty (pu ru zu : String) (dp dr dz : Nat → Bool) (k : Nat)
    (s : SliceConn) (hzu : zu = "") :
    (sliceStep pu ru zu dp dr dz k s).2.z = s.z := by
  simp only [sliceStep, hzu]
  split_ifs <;> simp_all

theorem connectSlice_stuck (pu ru zu : String) (dp dr dz : Nat → Bool) :
    ∀ fuel s k,
      ((pu = "" ∧ s.p = false) ∨ (ru = "" ∧ s.r = false) ∨ (zu = "" ∧ s.z = false)) →
      (connectSliceRun pu ru zu dp dr dz s k fuel).2 = false := by
  intro fuel
  induction fuel with
  | zero => intro s k _; rfl
  | succ fuel ih =>
      intro s k hinv
      rw [connectSliceRun]
      split_ifs with hc
      · exfalso
        rcases hinv with ⟨_, h⟩ | ⟨_, h⟩ | ⟨_, h⟩ <;> simp_all
      · show (connectSliceRun pu ru zu dp dr dz
            (sliceStep pu ru zu dp dr dz k s).2 (k + 1) fuel).2 = false
        refine ih _ _ ?_
        rcases hinv with ⟨hu, h⟩ | ⟨hu, h⟩ | ⟨hu, h⟩
        · exact Or.inl ⟨hu, by rw [sliceStep_p_empty _ _ _ _ _ _ _ _ hu]; exact h⟩
        · exact Or.inr (Or.inl ⟨hu, by rw [sliceStep_r_empty _ _ _ _ _ _ _ _ hu]; exact h⟩)
        · exact Or.inr (Or.inr ⟨hu, by rw [sliceStep_z_empty _ _ _ _ _ _ _ _ hu]; exact h⟩)

theorem sliceStep_no_sleep (pu ru zu : String) (dp dr dz : Nat → Bool) (k : Nat)
    (s : SliceConn) :
    sleepsOf (sliceStep pu ru zu dp dr dz k s).1 = [] := by
  simp only [sliceStep]
  split_ifs <;> simp [sleepsOf, sleepsOf_append]

theorem connectSlice_no_sleep (pu ru zu : String) (dp dr dz : Nat → Bool) :
    ∀ fuel s k, sleepsOf (connectSliceRun pu ru zu dp dr dz s k fuel).1 = [] := by
  intro fuel
  induction fuel with
  | zero => intro s k; rfl
  | succ fuel ih =>
      intro s k
      rw [connectSliceRun]
      split_ifs
      · rfl
      · show sleepsOf ((sliceStep pu ru zu dp dr dz k s).1 ++
            (connectSliceRun pu ru zu dp dr dz
              (sliceStep pu ru zu dp dr dz k s).2 (k + 1) fuel).1) = []
        rw [sleepsOf_append, sliceStep_no_sleep, ih]
        rfl

theorem siReduce_order_le (hr : ℚ) (o : Nat) : o ≤ (siReduce hr o).2 := by
  induction hr, o using siReduce.induct with
  | case1 reduced order h ih =>
      rw [siReduce, dif_pos h]
      omega
  | case2 reduced order h =>
      rw [siReduce, dif_neg h]

theorem siReduce_order_ge (k : Nat) :
    ∀ (hr : ℚ) (o : Nat), (1000 : ℚ) ^ k ≤ hr → o + 3 * k ≤ (siReduce hr o).2 := by
  induction k with
  | zero =>
      intro hr o _
      simpa using siReduce_order_le hr o
  | succ k ih =>
      intro hr o hk
      have h1000 : (1000 : ℚ) ≤ hr := by
        calc (1000 : ℚ) = 1000 ^ 1 := by norm_num
        _ ≤ 1000 ^ (k + 1) := by
              exact pow_le_pow_right₀ (by norm_num) (by omega)
        _ ≤ hr := hk
      rw [siReduce, dif_pos h1000]
      have hdiv : (1000 : ℚ) ^ k ≤ hr / 1000 := by
        rw [le_div_iff₀ (by norm_num : (0:ℚ) < 1000)]
        calc (1000:ℚ) ^ k * 1000 = 1000 ^ (k + 1) := by ring
        _ ≤ hr := hk
      have hrec := ih (hr / 1000) (o + 3) hdiv
      omega

theorem issuedIds_eq_range' (n : Nat) :
    ∀ start, issuedIds start n = List.range' start n := by
  induction n with
  | zero => intro start; rfl
  | succ n ih =>
      intro start
      rw [List.range'_succ]
      simp [issuedIds, incrementLatestID, ih (start + 1)]

theorem range'_chain (s n : Nat) :
    List.Chain' (fun a b => b = a + 1) (List.range' s n) := by
  induction n generalizing s with
  | zero => simp
  | succ n ih =>
      cases n with
      | zero => simp [List.range'_succ]
      | succ m =>
          rw [List.range'_succ, List.range'_succ, List.chain'_cons]
          exact ⟨rfl, by rw [← List.range'_succ]; exact ih (s + 1)⟩

/-! ## Claim theorems -/

/-- Claim C1: for every sequence of headers arriving on the update channel,
`miningLoop` has at most one live seal attempt at any time (every prefix of
the event trace leaves at most one started-but-not-cancelled attempt), the
stop channel of the in-flight attempt is closed strictly before the next
attempt starts (every prefix containing `start (k+1)` already contains
`cancel k`), and each received header is passed to `engine.Seal` in order. -/
theorem c1_at_most_one_live_seal (hs : List Nat) (n : Nat) :
    (liveFrom [] ((miningRun none 0 hs).take n)).length ≤ 1
    ∧ (∀ k h', SealEvent.start (k + 1) h' ∈ (miningRun none 0 hs).take n →
        SealEvent.cancel k ∈ (miningRun none 0 hs).take n)
    ∧ startHeaders (miningRun none 0 hs) = hs := by
  cases hs with
  | nil =>
      refine ⟨?_, ?_, rfl⟩
      · simp [miningRun, liveFrom]
      · intro k h' hm; simp [miningRun] at hm
  | cons h hs =>
      have he : miningRun none 0 (h :: hs) = SealEvent.start 0 h :: sealTraceFrom 0 hs := by
        show [] ++ (SealEvent.start 0 h :: miningRun (some 0) 1 hs) = _
        rw [List.nil_append, miningRun_some hs 0]
      refine ⟨?_, ?_, ?_⟩
      · rw [he]
        cases n with
        | zero => simp [liveFrom]
        | succ n =>
            rw [List.take_succ_cons]
            simp only [liveFrom, List.nil_append]
            exact live_sealTraceFrom hs 0 n
      · rw [he]
        cases n with
        | zero => intro k h' hm; simp at hm
        | succ n =>
            rw [List.take_succ_cons]
            intro k h' hm
            rcases List.mem_cons.mp hm with h1 | h2
            · exact absurd h1 (by simp)
            · have hc := cancel_before_start_aux hs 0 n (k + 1) h' h2
              simpa using List.mem_cons_of_mem (SealEvent.start 0 h) hc
      · rw [he]
        simp [startHeaders, startHeaders_sealTraceFrom hs 0]

/-- Concrete instance of `c1_at_most_one_live_seal` on the header sequence
`[5, 7]`, discharging the membership hypothesis at `start 1 7`. -/
theorem c1_at_most_one_live_seal_witness :
    (liveFrom [] ((miningRun none 0 [5, 7]).take 3)).length ≤ 1
    ∧ SealEvent.cancel 0 ∈ (miningRun none 0 [5, 7]).take 3 := by
  refine ⟨(c1_at_most_one_live_seal [5, 7] 3).1, ?_⟩
  exact (c1_at_most_one_live_seal [5, 7] 3).2.1 0 7 (by decide)

/-- Claim C2 is false on the code: after a `CalcOrder` failure the result
loop executes `return`, so a valid Zone result arriving next on the result
channel is never processed (no submission for it appears in the trace). -/
theorem c2_counterexample :
    resultLoop false
      [⟨Except.error ("bad header"), fun _ => true⟩, ⟨Except.ok ZONE_CTX, fun _ => true⟩]
      = [REvent.logLine ("Mined block had invalid order")]
    ∧ REvent.submitNode ZONE_CTX true ∉ resultLoop false
      [⟨Except.error ("bad header"), fun _ => true⟩, ⟨Except.ok ZONE_CTX, fun _ => true⟩] :=
  ⟨rfl, by decide⟩

/-- Claim C2 (amended): when order computation fails for a header taken from
the result channel, the result loop logs the failure, drops the result
without retrying, and returns — terminating result processing, so no
subsequent result on the channel is processed. -/
theorem c2_calcorder_failure_terminates_loop (proxy : Bool) (msg : String)
    (ok : Nat → Bool) (rs : List ResultInput) :
    resultLoop proxy (⟨Except.error msg, ok⟩ :: rs)
      = [REvent.logLine ("Mined block had invalid order")] := rfl

/-- Claim C3: in direct-node mode the fan-out submits, whatever the per-tier
outcomes, to exactly `[Zone]` for an order-Zone result, `[Zone, Region]` for
order Region, and `[Zone, Region, Prime]` for order Prime, deepest first. -/
theorem c3_fanout_tiers_by_order (ok : Nat → Bool) :
    submitsOf (resultStep false ⟨Except.ok ZONE_CTX, ok⟩).1 = [ZONE_CTX]
    ∧ submitsOf (resultStep false ⟨Except.ok REGION_CTX, ok⟩).1 = [ZONE_CTX, REGION_CTX]
    ∧ submitsOf (resultStep false ⟨Except.ok PRIME_CTX, ok⟩).1
        = [ZONE_CTX, REGION_CTX, PRIME_CTX] := ⟨rfl, rfl, rfl⟩

/-- Claim C4: for an order-Prime result whose Region submission fails, the
fan-out still submits to all three tiers in order (the failure does not
abort the loop), but the only log line emitted is the classification line —
the per-tier failure produces no log line, because the source constructs an
error with `fmt.Errorf` and discards it. -/
theorem c4_region_failure_unlogged_fanout_continues :
    (resultStep false ⟨Except.ok PRIME_CTX, fun i => decide (i ≠ REGION_CTX)⟩).1
      = [REvent.submitNode ZONE_CTX true, REvent.submitNode REGION_CTX false,
         REvent.submitNode PRIME_CTX true, REvent.logLine ("PRIME block")]
    ∧ logsOf (resultStep false ⟨Except.ok PRIME_CTX, fun i => decide (i ≠ REGION_CTX)⟩).1
      = ["PRIME block"] := ⟨rfl, rfl⟩

/-- Claim C5: in both retry loops (`fetchPendingHeaderNode` and
`sendMinedHeaderProxy`) the `n`-th delay slept (0-based) is
`min (2 ^ n) maxRetryDelay` seconds, starting at 1 and never exceeding the
4-hour cap; when every attempt fails the loop keeps retrying for any amount
of fuel (no retry-count limit), and the loop returns as soon as an attempt
succeeds, having slept exactly that delay sequence. -/
theorem c5_backoff_delays :
    (∀ n, retryDelayAfter n = min (2 ^ n) maxRetryDelay)
    ∧ (∀ n, retryDelayAfter n ≤ maxRetryDelay)
    ∧ (∀ (get : Nat → Option Nat) fuel, (∀ j, get j = none) →
        sleepsOf (fetchNodeRun get 1 0 fuel).1
          = (List.range fuel).map (fun i => min (2 ^ i) maxRetryDelay)
        ∧ (fetchNodeRun get 1 0 fuel).2 = false)
    ∧ (∀ (send : Nat → Bool) fuel, (∀ j, send j = false) →
        sleepsOf (sendProxyRun send 1 0 fuel).1
          = (List.range fuel).map (fun i => min (2 ^ i) maxRetryDelay)
        ∧ (sendProxyRun send 1 0 fuel).2 = false)
    ∧ (∀ (get : Nat → Option Nat) n h, (∀ j, j < n → get j = none) → get n = some h →
        (fetchNodeRun get 1 0 (n + 1)).2 = true
        ∧ sleepsOf (fetchNodeRun get 1 0 (n + 1)).1
            = (List.range n).map (fun i => min (2 ^ i) maxRetryDelay))
    ∧ (∀ (send : Nat → Bool) n, (∀ j, j < n → send j = false) → send n = true →
        (sendProxyRun send 1 0 (n + 1)).2 = true
        ∧ sleepsOf (sendProxyRun send 1 0 (n + 1)).1
            = (List.range n).map (fun i => min (2 ^ i) maxRetryDelay)) := by
  refine ⟨retryDelayAfter_eq, ?_, ?_, ?_, ?_, ?_⟩
  · intro n; rw [retryDelayAfter_eq]; omega
  · intro get fuel hfail
    have h := fetchNode_allFail get hfail fuel 1 0
    exact ⟨by rw [h.1, delaysFrom_one], h.2⟩
  · intro send fuel hfail
    have h := sendProxy_allFail send hfail fuel 1 0
    exact ⟨by rw [h.1, delaysFrom_one], h.2⟩
  · intro get n h hf hs
    have hh := fetchNode_success get n 1 0 h (by simpa using hf) (by simpa using hs)
    exact ⟨hh.1, by rw [hh.2, delaysFrom_one]⟩
  · intro send n hf hs
    have hh := sendProxy_success send n 1 0 (by simpa using hf) (by simpa using hs)
    exact ⟨hh.1, by rw [hh.2, delaysFrom_one]⟩

/-- Concrete instance of `c5_backoff_delays`: with every fetch failing the
first three sleeps are 1, 2 and 4 seconds, and a send loop whose third
attempt succeeds returns. -/
theorem c5_backoff_delays_witness :
    sleepsOf (fetchNodeRun (fun _ => none) 1 0 3).1 = [1, 2, 4]
    ∧ (sendProxyRun (fun k => decide (2 ≤ k)) 1 0 3).2 = true := by
  constructor
  · have h := (c5_backoff_delays.2.2.1 (fun _ => none) 3 (fun _ => rfl)).1
    rw [h]; decide
  · exact (c5_backoff_delays.2.2.2.2.2 (fun k => decide (2 ≤ k)) 2
      (by decide) (by decide)).1

/-- Claim C6 is false on the code: `m.latestId` is a plain field read and
incremented without atomics or locks, so in the interleaving where both
callers read the counter before either writes it back, both completed
callers are issued id 0 — a duplicate. -/
theorem c6_counterexample :
    (idRun [false, true, false, true] idInit).pcA = 2
    ∧ (idRun [false, true, false, true] idInit).pcB = 2
    ∧ (idRun [false, true, false, true] idInit).curA = 0
    ∧ (idRun [false, true, false, true] idInit).curB = 0 := by decide

/-- Claim C6 (amended): serialized calls of `incrementLatestID` issue the
consecutive ids `start, start+1, ...` — strictly increasing by 1 with no
duplicates (as in the serialized two-caller interleaving) — but the counter
is not protected, so only serialized execution guarantees this. -/
theorem c6_serialized_ids (start n : Nat) :
    issuedIds start n = List.range' start n
    ∧ List.Chain' (fun a b => b = a + 1) (issuedIds start n)
    ∧ (issuedIds start n).Nodup
    ∧ (idRun [false, false, true, true] idInit).curA = 0
    ∧ (idRun [false, false, true, true] idInit).curB = 1 := by
  refine ⟨issuedIds_eq_range' n start, ?_, ?_, by decide, by decide⟩
  · rw [issuedIds_eq_range' n start]
    exact range'_chain start n
  · rw [issuedIds_eq_range' n start]
    exact List.nodup_range' start n

/-- Claim C7 is false on the code: on the retry path of
`fetchPendingHeaderProxy` the header consumed from the update channel is not
re-enqueued — the iteration only logs and sleeps, and header 7 is lost. -/
theorem c7_counterexample :
    (fetchProxyIter false 7 1).1
      = [NetEvent.logLine ("Pending block not found error"), NetEvent.sleepFor 1]
    ∧ NetEvent.enqueueHeader 7 ∉ (fetchProxyIter false 7 1).1 :=
  ⟨rfl, by decide⟩

/-- Claim C7 (amended): the initial proxy fetch re-enqueues the header it
consumed from the update channel only on the success path (where it then
breaks); on the retry path the consumed header is dropped. -/
theorem c7_requeue_only_on_success (h d : Nat) :
    (fetchProxyIter true h d).1 = [NetEvent.enqueueHeader h]
    ∧ (fetchProxyIter true h d).2 = true
    ∧ NetEvent.enqueueHeader h ∉ (fetchProxyIter false h d).1
    ∧ (fetchProxyIter false h d).2 = false := by
  refine ⟨rfl, rfl, ?_, rfl⟩
  simp [fetchProxyIter]

/-- Claim C8: the SI conversion maps 950 to (950, h/s), 1500 to (1.5, Kh/s),
2500000 to (2.5, Mh/s), 1000 to (1, Kh/s), and any rate at least 1000^5 —
which reduces beyond the Th/s range — to the original undivided value with
the base suffix. -/
theorem c8_hashrate_si_units :
    toSiUnits 950 = (950, "h/s")
    ∧ toSiUnits 1500 = (3 / 2, "Kh/s")
    ∧ toSiUnits 2500000 = (5 / 2, "Mh/s")
    ∧ toSiUnits 1000 = (1, "Kh/s")
    ∧ (∀ hr : ℚ, (1000 : ℚ) ^ 5 ≤ hr → toSiUnits hr = (hr, "h/s")) := by
  refine ⟨?_, ?_, ?_, ?_, ?_⟩
  · have h : siReduce (950 : ℚ) 0 = (950, 0) := by rw [siReduce]; norm_num
    simp [toSiUnits, h]
  · have h : siReduce (1500 : ℚ) 0 = (3 / 2, 3) := by
      rw [siReduce]; norm_num; rw [siReduce]; norm_num
    simp [toSiUnits, h]
  · have h : siReduce (2500000 : ℚ) 0 = (5 / 2, 6) := by
      rw [siReduce]; norm_num; rw [siReduce]; norm_num; rw [siReduce]; norm_num
    simp [toSiUnits, h]
  · have h : siReduce (1000 : ℚ) 0 = (1, 3) := by
      rw [siReduce]; norm_num; rw [siReduce]; norm_num
    simp [toSiUnits, h]
  · intro hr hk
    have hord : 15 ≤ (siReduce hr 0).2 := by
      have := siReduce_order_ge 5 hr 0 hk
      omega
    simp only [toSiUnits]
    rw [if_neg (by omega), if_neg (by omega), if_neg (by omega), if_neg (by omega)]

/-- Concrete instance of `c8_hashrate_si_units` at the boundary rate
1000^5. -/
theorem c8_hashrate_si_units_witness :
    toSiUnits ((1000 : ℚ) ^ 5) = ((1000 : ℚ) ^ 5, "h/s") :=
  c8_hashrate_si_units.2.2.2.2 ((1000 : ℚ) ^ 5) (le_refl _)

/-- Claim C9: `connectToProxy` returns iff the proxy URL is non-empty and
some dial attempt succeeds (in particular with an empty URL it loops
forever); `connectToSlice` never returns while the Prime, Region or Zone URL
for the configured location is empty; and neither connection loop ever
sleeps between attempts. -/
theorem c9_connection_loops :
    (∀ (url : String) (dial : Nat → Bool),
      (∃ fuel, (connectProxyRun url dial 0 fuel).2 = true)
        ↔ (url ≠ "" ∧ ∃ n, dial n = true))
    ∧ (∀ (pu ru zu : String) (dp dr dz : Nat → Bool) (fuel k : Nat),
        (pu = "" ∨ ru = "" ∨ zu = "") →
        (connectSliceRun pu ru zu dp dr dz ⟨false, false, false⟩ k fuel).2 = false)
    ∧ (∀ (url : String) (dial : Nat → Bool) (fuel k : Nat),
        sleepsOf (connectProxyRun url dial k fuel).1 = [])
    ∧ (∀ (pu ru zu : String) (dp dr dz : Nat → Bool) (s : SliceConn) (fuel k : Nat),
        sleepsOf (connectSliceRun pu ru zu dp dr dz s k fuel).1 = []) := by
  refine ⟨?_, ?_, ?_, ?_⟩
  · intro url dial
    constructor
    · rintro ⟨fuel, hf⟩
      exact connectProxy_returns url dial fuel 0 hf
    · rintro ⟨hu, n, hd⟩
      exact ⟨n + 1, connectProxy_succeeds url dial hu n 0 (by simpa using hd)⟩
  · intro pu ru zu dp dr dz fuel k h
    refine connectSlice_stuck pu ru zu dp dr dz fuel _ k ?_
    rcases h with h | h | h
    · exact Or.inl ⟨h, rfl⟩
    · exact Or.inr (Or.inl ⟨h, rfl⟩)
    · exact Or.inr (Or.inr ⟨h, rfl⟩)
  · intro url dial fuel k
    exact connectProxy_no_sleep url dial fuel k
  · intro pu ru zu dp dr dz s fuel k
    exact connectSlice_no_sleep pu ru zu dp dr dz fuel s k

/-- Concrete instance of `c9_connection_loops`: a non-empty proxy URL whose
first dial succeeds returns, and a slice loop with an empty Prime URL has
not returned after 5 iterations. -/
theorem c9_connection_loops_witness :
    (∃ fuel, (connectProxyRun ("ws://proxy") (fun _ => true) 0 fuel).2 = true)
    ∧ (connectSliceRun "" ("r") ("z") (fun _ => true) (fun _ => true) (fun _ => true)
        ⟨false, false, false⟩ 0 5).2 = false := by
  constructor
  · exact (c9_connection_loops.1 ("ws://proxy") (fun _ => true)).mpr
      ⟨by decide, 0, rfl⟩
  · exact c9_connection_loops.2.1 "" ("r") ("z") _ _ _ 5 0 (Or.inl rfl)

/-- Claim C10: the pprof port map is injective on the enumerated locations —
Prime gets 21000, Region r gets 22000+r, Zone (r, z) with r, z < 3 gets
23000 + 100*r + z — and for a Zone location with region or zone index at
least 3 no case matches, the port stays empty, and the profiling server is
asked to listen on `localhost:` with no port. -/
theorem c10_pprof_ports :
    List.Pairwise (fun a b => pprofPort a ≠ pprofPort b) enumeratedLocations
    ∧ pprofPort [] = "21000"
    ∧ (∀ r, r < 3 → pprofPort [r] = Nat.repr (22000 + r))
    ∧ (∀ r, r < 3 → ∀ z, z < 3 → pprofPort [r, z] = Nat.repr (23000 + 100 * r + z))
    ∧ (∀ r z, 3 ≤ r ∨ 3 ≤ z →
        pprofPort [r, z] = "" ∧ pprofListenAddr [r, z] = "localhost:") := by
  refine ⟨by decide, rfl, ?_, ?_, ?_⟩
  · intro r hr
    interval_cases r <;> rfl
  · intro r hr z hz
    interval_cases r <;> interval_cases z <;> rfl
  · intro r z h
    have hport : pprofPort [r, z] = "" := by
      have he : pprofPort [r, z] = pprofPortAux ZONE_CTX r z := rfl
      rw [he]
      unfold pprofPortAux PRIME_CTX REGION_CTX ZONE_CTX
      repeat rw [if_neg (by omega)]
    refine ⟨hport, ?_⟩
    show "localhost:" ++ pprofPort [r, z] = "localhost:"
    rw [hport]
    decide

/-- Concrete instances of `c10_pprof_ports`: region index 3 and zone index 5
leave the port empty, and Zone (1, 2) maps to port 23102. -/
theorem c10_pprof_ports_witness :
    pprofPort [3, 0] = "" ∧ pprofListenAddr [0, 5] = "localhost:"
    ∧ pprofPort [1, 2] = Nat.repr 23102 := by
  refine ⟨(c10_pprof_ports.2.2.2.2 3 0 (Or.inl (by decide))).1,
    (c10_pprof_ports.2.2.2.2 0 5 (Or.inr (by decide))).2, ?_⟩
  have h := c10_pprof_ports.2.2.2.1 1 (by decide) 2 (by decide)
  simpa using h

end QuaiMiner
